import Mathlib

/-!
Verification of the Enixnel in-memory filesystem.

The development shallowly embeds the filesystem core of the repository:
the global entry table and its operations (`kernel/crtfiles.c`,
`kernel/delfiles.c`) and the path utilities and CLI handlers that use
them (`kernel/main.c`).  C strings are modelled as `List Char` (the
characters before the terminating NUL); the fixed 512-byte content
array of an entry is a `List Char` of length 512; machine integers
that can only hold small values (slot indices, lengths bounded by 31,
512 or 128) are `Nat`.  A C function that reports success or failure
through an `int` return code while mutating the global table becomes a
Lean function returning the success flag paired with the new table.
-/

namespace Enixnel

/-- Table capacity, `ENIXNEL_MAX_FS_ENTRIES` in `include/fs.h`. -/
def maxEntries : Nat := 128

/-- Maximum name length, `ENIXNEL_MAX_NAME_LEN` in `include/fs.h`. -/
def maxNameLen : Nat := 31

/-- Content capacity of a file, `ENIXNEL_MAX_FILE_SIZE` in `include/fs.h`. -/
def maxFileSize : Nat := 512

/-- The NUL character the C sources use as string terminator. -/
def c0 : Char := Char.ofNat 0

/-- Characters of a string literal, for readable concrete names. -/
def cs (s : String) : List Char := s.toList

/-- One slot of the global table: `struct fs_entry` in `include/fs.h`.
`name` holds the characters before the NUL terminator, `data` the full
512-byte content array, `size` the current content length. -/
structure FsEntry where
  used : Bool
  is_dir : Bool
  name : List Char
  size : Nat
  data : List Char
deriving DecidableEq

/-- `fs_find_index` (`kernel/crtfiles.c:40-65`): linear scan returning the
first slot whose entry is used and whose name matches character for
character, or none.  The C `-1` becomes `none`. -/
def fs_find_index : List FsEntry → List Char → Option Nat
  | [], _ => none
  | e :: rest, name =>
    if e.used ∧ e.name = name then some 0
    else (fs_find_index rest name).map (fun i => i + 1)

/-- The entry written into a free slot by `fs_alloc_entry`
(`kernel/crtfiles.c:89-104`): marks it used, records kind and name,
resets `size`, and for a file writes a NUL at `data[0]`. -/
def fs_new_entry (e : FsEntry) (name : List Char) (is_dir : Bool) : FsEntry :=
  { e with used := true, is_dir := is_dir, name := name, size := 0,
           data := if is_dir then e.data else e.data.set 0 c0 }

/-- The slot-scanning loop of `fs_alloc_entry` (`kernel/crtfiles.c:87-111`):
claims the first free slot and returns its index, or none when every
slot is used. -/
def fs_alloc_slot : List FsEntry → List Char → Bool → Option Nat × List FsEntry
  | [], _, _ => (none, [])
  | e :: rest, name, is_dir =>
    if e.used then
      match fs_alloc_slot rest name is_dir with
      | (none, rest') => (none, e :: rest')
      | (some i, rest') => (some (i + 1), e :: rest')
    else
      (some 0, fs_new_entry e name is_dir :: rest)

/-- `fs_alloc_entry` (`kernel/crtfiles.c:71-112`): rejects the empty or
over-long name, rejects a duplicate name, otherwise claims the first
free slot. -/
def fs_alloc_entry (t : List FsEntry) (name : List Char) (is_dir : Bool) :
    Option Nat × List FsEntry :=
  if name.length = 0 ∨ maxNameLen < name.length then (none, t)
  else if (fs_find_index t name).isSome then (none, t)
  else fs_alloc_slot t name is_dir

/-- `fs_create_dir` (`kernel/crtfiles.c:123-127`). -/
def fs_create_dir (t : List FsEntry) (name : List Char) : Bool × List FsEntry :=
  match fs_alloc_entry t name true with
  | (some _, t') => (true, t')
  | (none, t') => (false, t')

/-- `fs_create_file` (`kernel/crtfiles.c:129-133`). -/
def fs_create_file (t : List FsEntry) (name : List Char) : Bool × List FsEntry :=
  match fs_alloc_entry t name false with
  | (some _, t') => (true, t')
  | (none, t') => (false, t')

/-- `fs_delete_dir` (`kernel/delfiles.c:22-38`): requires the name to
resolve to a used directory entry, then clears `used`, `is_dir` and the
name of that slot, touching nothing else.  (`fs_find_index` always
returns an in-range index, so the `t[i]? = none` branch is dead.) -/
def fs_delete_dir (t : List FsEntry) (name : List Char) : Bool × List FsEntry :=
  match fs_find_index t name with
  | none => (false, t)
  | some i =>
    match t[i]? with
    | none => (false, t)
    | some e =>
      if e.is_dir then
        (true, t.set i { e with used := false, is_dir := false, name := [] })
      else (false, t)

/-- `fs_delete_file` (`kernel/delfiles.c:44-60`): same as
`fs_delete_dir` with the kind test flipped. -/
def fs_delete_file (t : List FsEntry) (name : List Char) : Bool × List FsEntry :=
  match fs_find_index t name with
  | none => (false, t)
  | some i =>
    match t[i]? with
    | none => (false, t)
    | some e =>
      if e.is_dir then (false, t)
      else (true, t.set i { e with used := false, is_dir := false, name := [] })

/-- The byte-copy loop of `fs_write_file` (`kernel/crtfiles.c:174-176`):
stores the input bytes one by one starting at `off`. -/
def storeBytes : List Char → Nat → List Char → List Char
  | arr, _, [] => arr
  | arr, off, c :: rest => storeBytes (arr.set off c) (off + 1) rest

/-- Tail of `fs_write_file` (`kernel/crtfiles.c:162-187`) once the target
slot `i` holding entry `e` is fixed: compute the start offset (0 for
overwrite, current size for append), fail if it already reaches the
content capacity, clamp the byte count to the remaining space, copy,
update the size, and NUL-terminate. -/
def fs_write_step (t : List FsEntry) (i : Nat) (e : FsEntry) (bytes : List Char)
    (append : Bool) : Bool × List FsEntry :=
  let off := if append then e.size else 0
  if maxFileSize ≤ off then (false, t)
  else
    let len := min bytes.length (maxFileSize - off)
    let d1 := storeBytes e.data off (bytes.take len)
    let off2 := off + len
    let d2 := if off2 < maxFileSize then d1.set off2 c0 else d1.set (maxFileSize - 1) c0
    (true, t.set i { e with size := off2, data := d2 })

/-- `fs_write_file` (`kernel/crtfiles.c:139-188`) for a non-null name and
data pointer; `bytes` is the sequence of `len` bytes the caller passes.
If the name resolves to a directory the write fails; if it resolves to
nothing the file is auto-created (and its size and `data[0]` re-cleared,
as in the source) before writing. -/
def fs_write_file (t : List FsEntry) (name bytes : List Char) (append : Bool) :
    Bool × List FsEntry :=
  match fs_find_index t name with
  | some i =>
    match t[i]? with
    | none => (false, t)
    | some e => if e.is_dir then (false, t) else fs_write_step t i e bytes append
  | none =>
    match fs_alloc_entry t name false with
    | (none, t1) => (false, t1)
    | (some i, t1) =>
      match t1[i]? with
      | none => (false, t1)
      | some e =>
        let e0 := { e with size := 0, data := e.data.set 0 c0 }
        fs_write_step (t1.set i e0) i e0 bytes append

/-- `fs_write_file` including its null-pointer guards
(`kernel/crtfiles.c:141-143`): a null name, or a null data pointer with
a nonzero length, fails immediately; a null data pointer with length 0
proceeds with no bytes; otherwise the first `len` bytes of the buffer
are written. -/
def fs_write_file_c (t : List FsEntry) (name bytes : Option (List Char))
    (len : Nat) (append : Bool) : Bool × List FsEntry :=
  match name with
  | none => (false, t)
  | some n =>
    match bytes with
    | none => if 0 < len then (false, t) else fs_write_file t n [] append
    | some d => fs_write_file t n (d.take len) append

/-- `path_join` (`kernel/main.c:273-312`): an empty dir gives the name
alone, otherwise dir, separator and name are concatenated; either way
the result is truncated to `out_size - 1` characters. -/
def path_join (dir name : List Char) (out_size : Nat) : List Char :=
  if out_size = 0 then []
  else if dir.length = 0 then name.take (out_size - 1)
  else (dir ++ '/' :: name).take (out_size - 1)

/-- The backwards scan of `path_parent` / `path_basename`
(`kernel/main.c:332-335`): starting from position `k`, walk left until
the character just before the position is a separator; returns 0 when
no separator is found. -/
def last_slash (path : List Char) : Nat → Nat
  | 0 => 0
  | k + 1 => if path.getD k c0 = '/' then k + 1 else last_slash path k

/-- `path_parent` (`kernel/main.c:315-352`): everything strictly before
the last separator, the empty list (root) when there is none, truncated
to the output buffer. -/
def path_parent (path : List Char) (out_size : Nat) : List Char :=
  if out_size = 0 then []
  else if path.length = 0 then []
  else
    let ls := last_slash path path.length
    if ls = 0 then []
    else path.take (min (ls - 1) (out_size - 1))

/-- `path_basename` (`kernel/main.c:355-387`): everything after the last
separator (the whole string when there is none), truncated to the
output buffer. -/
def path_basename (path : List Char) (out_size : Nat) : List Char :=
  if out_size = 0 then []
  else if path.length = 0 then []
  else
    let st := last_slash path path.length
    (path.drop st).take (min (path.length - st) (out_size - 1))

/-- Size of the `char name[..]` / `char full[..]` buffers every CLI
handler uses: `ENIXNEL_MAX_NAME_LEN + 1`. -/
def nameBufSize : Nat := maxNameLen + 1

/-- `cli_first_arg` (`kernel/main.c:415-429`): skip leading spaces, then
take the characters of the first token, at most `arg_out_size - 1`. -/
def cli_first_arg (args : List Char) (arg_out_size : Nat) : List Char :=
  ((args.dropWhile (fun c => c = ' ')).takeWhile (fun c => c ≠ ' ')).take
    (arg_out_size - 1)

/-- `cli_cmd_cd` (`kernel/main.c:727-775`), returning the new value of
`current_dir`.  `"."` and a missing name leave it unchanged, `".."`
moves to the parent of the current dir, and any other name is joined
with the current dir and accepted only when it resolves to a used
directory entry.  The final copy loops are bounded by 31 characters. -/
def cli_cmd_cd (t : List FsEntry) (cur args : List Char) : List Char :=
  let name := cli_first_arg args nameBufSize
  if name = [] then cur
  else if name = ['.'] then cur
  else if name = ['.', '.'] then (path_parent cur nameBufSize).take maxNameLen
  else
    let target := path_join cur name nameBufSize
    match fs_find_index t target with
    | none => cur
    | some i =>
      match t[i]? with
      | none => cur
      | some e => if e.used ∧ e.is_dir then target.take maxNameLen else cur

/-- `cli_cmd_sdir` (`kernel/main.c:574-604`), as the list of lines it
prints: one pair (kind tag, basename) per used entry whose derived
parent equals the current dir, in slot order.  `true` stands for the
`[DIR]` tag and `false` for `[FILE]`. -/
def cli_cmd_sdir (t : List FsEntry) (cur : List Char) : List (Bool × List Char) :=
  t.filterMap (fun e =>
    if e.used ∧ path_parent e.name nameBufSize = cur then
      some (e.is_dir, path_basename e.name nameBufSize)
    else none)

/-- One mutating table operation, for reachability statements. -/
inductive FsOp where
  | cdir : List Char → FsOp
  | cfile : List Char → FsOp
  | ddir : List Char → FsOp
  | dfile : List Char → FsOp
  | fwrite : List Char → List Char → Bool → FsOp

/-- Apply one operation to the table, keeping the resulting table and
discarding the return code (as the CLI handlers do for state purposes). -/
def applyOp (t : List FsEntry) : FsOp → List FsEntry
  | .cdir n => (fs_create_dir t n).2
  | .cfile n => (fs_create_file t n).2
  | .ddir n => (fs_delete_dir t n).2
  | .dfile n => (fs_delete_file t n).2
  | .fwrite n b ap => (fs_write_file t n b ap).2

/-- Apply a sequence of operations in order. -/
def runOps (t : List FsEntry) : List FsOp → List FsEntry
  | [] => t
  | op :: rest => runOps (applyOp t op) rest

/-- A zero-initialized slot of the C global `fs_entries` array. -/
def initEntry : FsEntry :=
  { used := false, is_dir := false, name := [], size := 0,
    data := List.replicate maxFileSize c0 }

/-- The zero-initialized global table, before `fs_init_layout` runs. -/
def base128 : List FsEntry := List.replicate maxEntries initEntry

/-- The creations performed by `fs_init_layout` (`kernel/main.c:437-454`). -/
def initOps : List FsOp :=
  [.cdir (cs "bin"), .cdir (cs "user"),
   .cfile (cs "bin/echo"), .cfile (cs "bin/crtdir"), .cfile (cs "bin/cfile"),
   .cfile (cs "bin/deldir"), .cfile (cs "bin/dfile"), .cfile (cs "bin/sdir"),
   .cfile (cs "bin/sfile"), .cfile (cs "bin/efile"), .cfile (cs "bin/clr"),
   .cfile (cs "bin/cd")]

/-- The table right after boot: the initial layout applied to the
zero-initialized global array. -/
def initTable : List FsEntry := runOps base128 initOps

/-- The stored content of a file entry: the first `size` bytes of its
content array. -/
def content (e : FsEntry) : List Char := e.data.take e.size

/-- Two slots are name-compatible when, if both are used, their names
differ. -/
def NameOk (a b : FsEntry) : Prop := a.used = true → b.used = true → a.name ≠ b.name

instance : DecidableRel NameOk := fun a b => by unfold NameOk; infer_instance

/-- Name uniqueness: no two used entries of the table carry the same
name string. -/
def UniqNames (t : List FsEntry) : Prop := t.Pairwise NameOk

instance (t : List FsEntry) : Decidable (UniqNames t) := by
  unfold UniqNames; infer_instance

/-- Number of used entries of the table. -/
def usedCount (t : List FsEntry) : Nat := (t.filter (fun e => e.used)).length

/-- What a write stores given the bytes that reach the content array:
they are kept as they are while the content stays below the 512-byte
capacity, but a write that fills the array to exactly 512 bytes gets
its last byte overwritten by the NUL terminator
(`kernel/crtfiles.c:181-185`). -/
def nulClamp (l : List Char) : List Char :=
  if l.length < maxFileSize then l else l.take (maxFileSize - 1) ++ [c0]

/-- A used file slot with empty content, for concrete tables. -/
def fileSlot (n : String) : FsEntry :=
  { used := true, is_dir := false, name := cs n, size := 0,
    data := List.replicate maxFileSize c0 }

/-- A used directory slot, for concrete tables. -/
def dirSlot (n : String) : FsEntry :=
  { used := true, is_dir := true, name := cs n, size := 0,
    data := List.replicate maxFileSize c0 }

/-- A fully occupied table, for concrete capacity tests. -/
def allUsed128 : List FsEntry := List.replicate maxEntries (fileSlot "a")

/-- The three-entry layout of the listing example: `user/a` a file,
`user/b` a directory, `user/b/c` a file. -/
def sdirExample : List FsEntry :=
  [fileSlot "user/a", dirSlot "user/b", fileSlot "user/b/c"]

set_option maxRecDepth 200000

/-! ### Lookup lemmas -/

theorem find_some_lt {t : List FsEntry} {name : List Char} {i : Nat}
    (h : fs_find_index t name = some i) : i < t.length := by
  induction t generalizing i with
  | nil => simp [fs_find_index] at h
  | cons e rest ih =>
    simp only [fs_find_index] at h
    split at h
    · cases h; simp
    · rcases Option.map_eq_some'.mp h with ⟨j, hj, rfl⟩
      simpa using Nat.succ_lt_succ (ih hj)

theorem find_some_spec {t : List FsEntry} {name : List Char} {i : Nat}
    (h : fs_find_index t name = some i) :
    ∃ e, t[i]? = some e ∧ e.used = true ∧ e.name = name := by
  induction t generalizing i with
  | nil => simp [fs_find_index] at h
  | cons e rest ih =>
    by_cases hc : e.used = true ∧ e.name = name
    · rw [fs_find_index, if_pos hc] at h
      injection h with h'
      subst h'
      exact ⟨e, by simp, hc.1, hc.2⟩
    · rw [fs_find_index, if_neg hc] at h
      rcases Option.map_eq_some'.mp h with ⟨j, hj, hji⟩
      subst hji
      simpa using ih hj

theorem find_none_spec {t : List FsEntry} {name : List Char}
    (h : fs_find_index t name = none) :
    ∀ (i : Nat) (e : FsEntry), t[i]? = some e → e.used = true → e.name ≠ name := by
  induction t with
  | nil => intro i e he; simp at he
  | cons a rest ih =>
    by_cases hc : a.used = true ∧ a.name = name
    · rw [fs_find_index, if_pos hc] at h; cases h
    · rw [fs_find_index, if_neg hc] at h
      have hrest : fs_find_index rest name = none := Option.map_eq_none'.mp h
      intro i e he hu
      cases i with
      | zero =>
        have hae : a = e := by simpa using he
        subst hae
        intro hn
        exact hc ⟨hu, hn⟩
      | succ j => exact ih hrest j e (by simpa using he) hu

theorem find_set_same {t : List FsEntry} {name : List Char} {i : Nat}
    (h : fs_find_index t name = some i) {e' : FsEntry}
    (hu : e'.used = true) (hn : e'.name = name) :
    fs_find_index (t.set i e') name = some i := by
  induction t generalizing i with
  | nil => simp [fs_find_index] at h
  | cons a rest ih =>
    by_cases hc : a.used = true ∧ a.name = name
    · rw [fs_find_index, if_pos hc] at h
      injection h with h'
      subst h'
      simp [fs_find_index, hu, hn]
    · rw [fs_find_index, if_neg hc] at h
      rcases Option.map_eq_some'.mp h with ⟨j, hj, hji⟩
      subst hji
      simp only [List.set_cons_succ, fs_find_index, if_neg hc, ih hj,
        Option.map_some']

theorem find_none_set_unused {t : List FsEntry} {name : List Char} {i : Nat}
    (h : fs_find_index t name = none) {e' : FsEntry} (hu : e'.used = false) :
    fs_find_index (t.set i e') name = none := by
  induction t generalizing i with
  | nil => simp [fs_find_index]
  | cons a rest ih =>
    by_cases hc : a.used = true ∧ a.name = name
    · rw [fs_find_index, if_pos hc] at h; cases h
    · rw [fs_find_index, if_neg hc] at h
      have hrest : fs_find_index rest name = none := Option.map_eq_none'.mp h
      cases i with
      | zero =>
        have hcc : ¬(e'.used = true ∧ e'.name = name) := by
          intro hx
          rw [hu] at hx
          exact absurd hx.1 (by simp)
        simp [fs_find_index, hcc, Option.map_eq_none', hrest]
      | succ j =>
        simp [fs_find_index, if_neg hc, Option.map_eq_none', ih hrest]

theorem find_none_set_used {t : List FsEntry} {name : List Char} {i : Nat}
    (h : fs_find_index t name = none) (hi : i < t.length) {e' : FsEntry}
    (hu : e'.used = true) (hn : e'.name = name) :
    fs_find_index (t.set i e') name = some i := by
  induction t generalizing i with
  | nil => simp at hi
  | cons a rest ih =>
    by_cases hc : a.used = true ∧ a.name = name
    · rw [fs_find_index, if_pos hc] at h; cases h
    · rw [fs_find_index, if_neg hc] at h
      have hrest : fs_find_index rest name = none := Option.map_eq_none'.mp h
      cases i with
      | zero => simp [fs_find_index, hu, hn]
      | succ j =>
        simp only [List.set_cons_succ, fs_find_index, if_neg hc,
          ih hrest (by simpa using hi), Option.map_some']

/-! ### Allocation lemmas -/

theorem alloc_slot_spec (t : List FsEntry) (n : List Char) (d : Bool) :
    ((fs_alloc_slot t n d).1 = none ∧ (fs_alloc_slot t n d).2 = t ∧
      ∀ e ∈ t, e.used = true) ∨
    (∃ i e, (fs_alloc_slot t n d).1 = some i ∧ t[i]? = some e ∧ e.used = false ∧
      (fs_alloc_slot t n d).2 = t.set i (fs_new_entry e n d)) := by
  induction t with
  | nil => exact Or.inl ⟨rfl, rfl, by simp⟩
  | cons e rest ih =>
    by_cases hu : e.used = true
    · rcases hp : fs_alloc_slot rest n d with ⟨o, r'⟩
      rw [hp] at ih
      have hstep : fs_alloc_slot (e :: rest) n d =
          match (o, r') with
          | (none, rest') => (none, e :: rest')
          | (some i, rest') => (some (i + 1), e :: rest') := by
        rw [fs_alloc_slot, if_pos hu, hp]
      rcases ih with ⟨h1, h2, h3⟩ | ⟨i, ee, h1, h2, h3, h4⟩
      · left
        simp only at h1 h2
        subst h1
        simp only at hstep
        rw [hstep, h2]
        refine ⟨rfl, rfl, ?_⟩
        intro x hx
        rcases List.mem_cons.mp hx with rfl | hx
        · exact hu
        · exact h3 x hx
      · right
        simp only at h1 h2 h3 h4
        subst h1
        simp only at hstep
        rw [hstep, h4]
        exact ⟨i + 1, ee, rfl, by simpa using h2, h3, by simp⟩
    · right
      have hstep : fs_alloc_slot (e :: rest) n d =
          (some 0, fs_new_entry e n d :: rest) := by
        rw [fs_alloc_slot, if_neg hu]
      rw [hstep]
      exact ⟨0, e, rfl, by simp, by simpa using hu, by simp⟩

theorem alloc_slot_length (t : List FsEntry) (n : List Char) (d : Bool) :
    (fs_alloc_slot t n d).2.length = t.length := by
  rcases alloc_slot_spec t n d with ⟨_, h2, _⟩ | ⟨i, e, _, _, _, h4⟩
  · rw [h2]
  · rw [h4, List.length_set]

theorem alloc_entry_length (t : List FsEntry) (n : List Char) (d : Bool) :
    (fs_alloc_entry t n d).2.length = t.length := by
  rw [fs_alloc_entry]
  split
  · rfl
  · split
    · rfl
    · exact alloc_slot_length t n d

/-! ### Byte-store lemmas -/

theorem take_set_self (l : List Char) (i : Nat) (a : Char) :
    (l.set i a).take i = l.take i := by
  apply List.ext_getElem?
  intro k
  rw [List.getElem?_take, List.getElem?_take]
  split
  · exact List.getElem?_set_ne (by omega)
  · rfl

theorem storeBytes_eq : ∀ (input arr : List Char) (off : Nat),
    off + input.length ≤ arr.length →
    storeBytes arr off input = arr.take off ++ input ++ arr.drop (off + input.length)
  | [], arr, off, _ => by simp [storeBytes]
  | c :: rest, arr, off, h => by
    have hoff : off < arr.length := by simp at h; omega
    have hlen : (off + 1) + rest.length ≤ (arr.set off c).length := by
      simp at h ⊢; omega
    rw [storeBytes, storeBytes_eq rest (arr.set off c) (off + 1) hlen]
    rw [List.set_eq_take_cons_drop c hoff]
    have hlt : (arr.take off).length = off := by
      simp [Nat.min_eq_left (Nat.le_of_lt hoff)]
    rw [List.take_append_eq_append_take, List.drop_append_eq_append_drop, hlt]
    have h1 : (arr.take off).take (off + 1) = arr.take off :=
      List.take_of_length_le (by omega)
    have h2 : off + 1 - off = 1 := by omega
    have h3 : off + 1 + rest.length - off = 1 + rest.length := by omega
    have h4 : (arr.take off).drop (off + 1 + rest.length) = [] := by
      apply List.drop_eq_nil_of_le
      omega
    rw [h1, h2, h3, h4]
    simp only [List.take_succ_cons, List.take_zero, List.nil_append]
    have h5 : (1 : Nat) + rest.length = rest.length + 1 := by omega
    rw [h5, List.drop_succ_cons]
    have h7 : (arr.drop (off + 1)).drop rest.length = arr.drop (off + (rest.length + 1)) := by
      rw [List.drop_drop]
      congr 1
      omega
    rw [h7]
    simp [List.append_assoc]

theorem take_min_length (l : List Char) (k : Nat) :
    l.take (min l.length k) = l.take k := by
  rw [Nat.min_comm, ← List.take_take, List.take_length]

/-- Success case of `fs_write_step`: the slot is overwritten in place,
metadata is kept, the new size is the clamped total, and the stored
content is the copied bytes after the old content kept below the start
offset, with the capacity-edge NUL overwrite. -/
theorem write_step_spec (t : List FsEntry) (i : Nat) (e : FsEntry) (bytes : List Char)
    (ap : Bool) (hd : e.data.length = maxFileSize)
    (hoff : (if ap then e.size else 0) < maxFileSize) :
    ∃ e', fs_write_step t i e bytes ap = (true, t.set i e') ∧
      e'.used = e.used ∧ e'.is_dir = e.is_dir ∧ e'.name = e.name ∧
      e'.data.length = maxFileSize ∧
      e'.size = min ((if ap then e.size else 0) + bytes.length) maxFileSize ∧
      content e' =
        nulClamp ((e.data.take (if ap then e.size else 0) ++ bytes).take maxFileSize) := by
  set off := (if ap then e.size else 0) with hoffdef
  have hle : ¬ (maxFileSize ≤ off) := by omega
  set len := min bytes.length (maxFileSize - off) with hlendef
  set d1 := storeBytes e.data off (bytes.take len) with hd1def
  set d2 := (if off + len < maxFileSize then d1.set (off + len) c0
             else d1.set (maxFileSize - 1) c0) with hd2def
  have hstep : fs_write_step t i e bytes ap =
      (true, t.set i { e with size := off + len, data := d2 }) := by
    rw [fs_write_step]
    simp only [← hoffdef, ← hlendef, ← hd1def, ← hd2def, if_neg hle]
  have hlenb : len ≤ bytes.length := by omega
  have hlenlen : (bytes.take len).length = len := by
    simp [Nat.min_eq_left hlenb]
  have hofflen : off + len ≤ maxFileSize := by omega
  have hsplice : d1 = e.data.take off ++ bytes.take len ++ e.data.drop (off + len) := by
    rw [hd1def, storeBytes_eq _ _ _ (by rw [hlenlen, hd]; omega), hlenlen]
  have hAlen : (e.data.take off).length = off := by
    simp [hd]
    omega
  have hd1len : d1.length = maxFileSize := by
    rw [hsplice]
    simp [List.length_append, hAlen, hlenlen, hd]
    omega
  have hd2len : d2.length = maxFileSize := by
    rw [hd2def]
    split <;> simp [hd1len]
  have hB : bytes.take len = bytes.take (maxFileSize - off) := by
    rw [hlendef, take_min_length]
  have hArg : (e.data.take off ++ bytes).take maxFileSize =
      e.data.take off ++ bytes.take (maxFileSize - off) := by
    rw [List.take_append_eq_append_take, hAlen,
      List.take_of_length_le (by rw [hAlen]; omega)]
  have hArgLen : (e.data.take off ++ bytes.take (maxFileSize - off)).length = off + len := by
    simp [hAlen, hlendef]
    omega
  refine ⟨{ e with size := off + len, data := d2 }, hstep, rfl, rfl, rfl, hd2len,
    (by show off + len = min (off + bytes.length) maxFileSize; omega), ?_⟩
  show d2.take (off + len) = _
  rw [hArg, ← hB]
  by_cases hlt : off + len < maxFileSize
  · have hcl : nulClamp (e.data.take off ++ bytes.take len) =
        e.data.take off ++ bytes.take len := by
      rw [nulClamp, if_pos]
      rw [List.length_append, hAlen, hlenlen]
      omega
    rw [hcl, hd2def, if_pos hlt, take_set_self, hsplice]
    exact List.take_left' (by rw [List.length_append, hAlen, hlenlen])
  · have heq : off + len = maxFileSize := by omega
    have hCnil : e.data.drop (off + len) = ([] : List Char) := by
      rw [heq, ← hd, List.drop_length]
    have hAB : d1 = e.data.take off ++ bytes.take len := by
      rw [hsplice, hCnil, List.append_nil]
    have hABlen : (e.data.take off ++ bytes.take len).length = maxFileSize := by
      rw [List.length_append, hAlen, hlenlen, heq]
    rw [hd2def, if_neg hlt, hAB]
    have h511 : maxFileSize - 1 < (e.data.take off ++ bytes.take len).length := by
      rw [hABlen]
      omega
    rw [List.set_eq_take_cons_drop c0 h511]
    have hdropnil : (e.data.take off ++ bytes.take len).drop (maxFileSize - 1 + 1) =
        ([] : List Char) := by
      apply List.drop_eq_nil_of_le
      rw [hABlen]
      omega
    rw [hdropnil]
    have hcl : nulClamp (e.data.take off ++ bytes.take len) =
        (e.data.take off ++ bytes.take len).take (maxFileSize - 1) ++ [c0] := by
      rw [nulClamp, if_neg]
      rw [hABlen]
      omega
    rw [hcl]
    apply List.take_of_length_le
    simp [hABlen]
    omega

/-! ### Uniqueness lemmas -/

theorem uniq_pairs {t : List FsEntry} (hu : UniqNames t) {i j : Nat} {ei ej : FsEntry}
    (hij : i ≠ j) (hi : t[i]? = some ei) (hj : t[j]? = some ej)
    (hui : ei.used = true) (huj : ej.used = true) : ei.name ≠ ej.name := by
  rw [UniqNames, List.pairwise_iff_getElem] at hu
  have hi' : i < t.length := by
    by_contra hlt
    rw [List.getElem?_eq_none (by omega)] at hi
    cases hi
  have hj' : j < t.length := by
    by_contra hlt
    rw [List.getElem?_eq_none (by omega)] at hj
    cases hj
  have hieq : t[i] = ei := by
    rw [List.getElem?_eq_getElem hi'] at hi
    exact Option.some.inj hi
  have hjeq : t[j] = ej := by
    rw [List.getElem?_eq_getElem hj'] at hj
    exact Option.some.inj hj
  rcases Nat.lt_or_ge i j with hlt | hge
  · have := hu i j hi' hj' hlt
    rw [NameOk, hieq, hjeq] at this
    exact this hui huj
  · have hlt : j < i := by omega
    have := hu j i hj' hi' hlt
    rw [NameOk, hjeq, hieq] at this
    exact (this huj hui).symm

theorem uniq_set_entry {t : List FsEntry} {i : Nat} {e' : FsEntry}
    (hu : UniqNames t)
    (hok : ∀ (j : Nat) (ej : FsEntry), j ≠ i → t[j]? = some ej → ej.used = true →
      e'.used = true → ej.name ≠ e'.name) :
    UniqNames (t.set i e') := by
  rw [UniqNames, List.pairwise_iff_getElem] at hu ⊢
  intro a b ha hb hab
  have ha' : a < t.length := by simpa using ha
  have hb' : b < t.length := by simpa using hb
  rw [NameOk, List.getElem_set, List.getElem_set]
  by_cases hia : i = a
  · subst hia
    rw [if_pos rfl, if_neg (by omega)]
    intro hu1 hu2 hnn
    exact hok b t[b] (by omega) (List.getElem?_eq_getElem hb') hu2 hu1 hnn.symm
  · rw [if_neg hia]
    by_cases hib : i = b
    · subst hib
      rw [if_pos rfl]
      intro hu1 hu2
      exact hok a t[a] (by omega) (List.getElem?_eq_getElem ha') hu1 hu2
    · rw [if_neg hib]
      exact hu a b ha' hb' hab

theorem uniq_set_keep {t : List FsEntry} {i : Nat} {e e' : FsEntry}
    (hu : UniqNames t) (hi : t[i]? = some e) (hn : e'.name = e.name)
    (himp : e'.used = true → e.used = true) :
    UniqNames (t.set i e') := by
  apply uniq_set_entry hu
  intro j ej hji hj huj hue'
  rw [hn]
  exact uniq_pairs hu hji hj hi huj (himp hue')

theorem uniq_alloc_entry {t : List FsEntry} {n : List Char} {d : Bool}
    (hu : UniqNames t) : UniqNames (fs_alloc_entry t n d).2 := by
  rw [fs_alloc_entry]
  split
  · exact hu
  · split
    · exact hu
    · next hfs =>
      have hfind : fs_find_index t n = none := by
        rcases h : fs_find_index t n with _ | v
        · rfl
        · rw [h] at hfs
          simp at hfs
      rcases alloc_slot_spec t n d with ⟨_, h2, _⟩ | ⟨i, e, h1, h2, h3, h4⟩
      · rw [h2]
        exact hu
      · rw [h4]
        apply uniq_set_entry hu
        intro j ej hji hj huj hue'
        have := find_none_spec hfind j ej hj huj
        simpa [fs_new_entry] using this

theorem uniq_delete_dir {t : List FsEntry} {name : List Char}
    (hu : UniqNames t) : UniqNames (fs_delete_dir t name).2 := by
  rcases hf : fs_find_index t name with _ | i
  · simp only [fs_delete_dir, hf]
    exact hu
  · simp only [fs_delete_dir, hf]
    rcases hg : t[i]? with _ | e
    · simp only [hg]
      exact hu
    · simp only [hg]
      split
      · apply uniq_set_entry hu
        intro j ej hji hj huj hue'
        simp at hue'
      · exact hu

theorem uniq_delete_file {t : List FsEntry} {name : List Char}
    (hu : UniqNames t) : UniqNames (fs_delete_file t name).2 := by
  rcases hf : fs_find_index t name with _ | i
  · simp only [fs_delete_file, hf]
    exact hu
  · simp only [fs_delete_file, hf]
    rcases hg : t[i]? with _ | e
    · simp only [hg]
      exact hu
    · simp only [hg]
      split
      · exact hu
      · apply uniq_set_entry hu
        intro j ej hji hj huj hue'
        simp at hue'

theorem write_step_snd (t : List FsEntry) (i : Nat) (e : FsEntry) (b : List Char)
    (ap : Bool) :
    (fs_write_step t i e b ap).2 = t ∨
    ∃ e₂, (fs_write_step t i e b ap).2 = t.set i e₂ ∧ e₂.used = e.used ∧
      e₂.name = e.name := by
  simp only [fs_write_step]
  split <;> split
  all_goals first
    | exact Or.inl rfl
    | exact Or.inr ⟨_, rfl, rfl, rfl⟩

theorem uniq_write {t : List FsEntry} {name bytes : List Char} {ap : Bool}
    (hu : UniqNames t) : UniqNames (fs_write_file t name bytes ap).2 := by
  rcases hf : fs_find_index t name with _ | i
  · simp only [fs_write_file, hf]
    rcases ha : fs_alloc_entry t name false with ⟨o, t1⟩
    have hu1 : UniqNames t1 := by
      have := uniq_alloc_entry (n := name) (d := false) hu
      rwa [ha] at this
    cases o with
    | none => exact hu1
    | some i1 =>
      rcases hg : t1[i1]? with _ | e
      · simp only [hg]
        exact hu1
      · simp only [hg]
        have hu2 : UniqNames (t1.set i1 { e with size := 0, data := e.data.set 0 c0 }) :=
          uniq_set_keep hu1 hg rfl (fun h => h)
        have hset : (t1.set i1 { e with size := 0, data := e.data.set 0 c0 })[i1]? =
            some { e with size := 0, data := e.data.set 0 c0 } := by
          apply List.getElem?_set_self
          by_contra hlt
          rw [List.getElem?_eq_none (by omega)] at hg
          cases hg
        rcases write_step_snd (t1.set i1 { e with size := 0, data := e.data.set 0 c0 })
            i1 { e with size := 0, data := e.data.set 0 c0 } bytes ap with h | ⟨e₂, h, hu2', hn2⟩
        · rw [h]
          exact hu2
        · rw [h]
          exact uniq_set_keep hu2 hset hn2 (fun hx => by rwa [← hu2'])
  · simp only [fs_write_file, hf]
    rcases hg : t[i]? with _ | e
    · simp only [hg]
      exact hu
    · simp only [hg]
      split
      · exact hu
      · rcases write_step_snd t i e bytes ap with h | ⟨e₂, h, hu2', hn2⟩
        · rw [h]
          exact hu
        · rw [h]
          exact uniq_set_keep hu hg hn2 (fun hx => by rwa [← hu2'])

theorem create_dir_snd (t : List FsEntry) (n : List Char) :
    (fs_create_dir t n).2 = (fs_alloc_entry t n true).2 := by
  rw [fs_create_dir]
  rcases fs_alloc_entry t n true with ⟨o, t'⟩
  cases o <;> rfl

theorem create_file_snd (t : List FsEntry) (n : List Char) :
    (fs_create_file t n).2 = (fs_alloc_entry t n false).2 := by
  rw [fs_create_file]
  rcases fs_alloc_entry t n false with ⟨o, t'⟩
  cases o <;> rfl

theorem uniq_applyOp {t : List FsEntry} (op : FsOp) (hu : UniqNames t) :
    UniqNames (applyOp t op) := by
  cases op with
  | cdir n => rw [applyOp, create_dir_snd]; exact uniq_alloc_entry hu
  | cfile n => rw [applyOp, create_file_snd]; exact uniq_alloc_entry hu
  | ddir n => exact uniq_delete_dir hu
  | dfile n => exact uniq_delete_file hu
  | fwrite n b ap => exact uniq_write hu

theorem uniq_runOps {t : List FsEntry} (ops : List FsOp) (hu : UniqNames t) :
    UniqNames (runOps t ops) := by
  induction ops generalizing t with
  | nil => exact hu
  | cons op rest ih => exact ih (uniq_applyOp op hu)

theorem uniq_base : UniqNames base128 := by decide

theorem getElem_some_lt {α : Type} {l : List α} {i : Nat} {a : α}
    (h : l[i]? = some a) : i < l.length := by
  by_contra hlt
  rw [List.getElem?_eq_none (by omega)] at h
  cases h

/-! ### Claim C2 -/

/-- C2: every table state reachable from the initial layout by create,
delete and write operations keeps names of used entries pairwise
distinct, and every single operation preserves this invariant. -/
theorem c2_name_uniqueness :
    (∀ ops : List FsOp, UniqNames (runOps initTable ops)) ∧
    (∀ (t : List FsEntry) (op : FsOp), UniqNames t → UniqNames (applyOp t op)) := by
  constructor
  · intro ops
    exact uniq_runOps ops (uniq_runOps initOps uniq_base)
  · intro t op hu
    exact uniq_applyOp op hu

theorem c2_name_uniqueness_witness :
    UniqNames ([] : List FsEntry) ∧ UniqNames (applyOp [] (FsOp.cdir (cs "a"))) :=
  ⟨by decide, c2_name_uniqueness.2 [] (FsOp.cdir (cs "a")) (by decide)⟩

/-! ### Claim C7 -/

/-- C7: creating an entry under a name already held by a used entry
fails — through either create entry point, whatever the kinds are — and
leaves the whole table unchanged. -/
theorem c7_duplicate_create_fails :
    ∀ (t : List FsEntry) (name : List Char) (i : Nat),
      fs_find_index t name = some i →
      fs_create_dir t name = (false, t) ∧ fs_create_file t name = (false, t) := by
  intro t name i h
  have halloc : ∀ d, fs_alloc_entry t name d = (none, t) := by
    intro d
    rw [fs_alloc_entry]
    split
    · rfl
    · rw [if_pos (by rw [h]; rfl)]
  constructor
  · rw [fs_create_dir, halloc true]
  · rw [fs_create_file, halloc false]

theorem c7_duplicate_create_fails_witness :
    fs_find_index [fileSlot "x"] (cs "x") = some 0 ∧
    fs_create_dir [fileSlot "x"] (cs "x") = (false, [fileSlot "x"]) ∧
    fs_create_file [fileSlot "x"] (cs "x") = (false, [fileSlot "x"]) :=
  ⟨by decide, (c7_duplicate_create_fails [fileSlot "x"] (cs "x") 0 (by decide)).1,
    (c7_duplicate_create_fails [fileSlot "x"] (cs "x") 0 (by decide)).2⟩

/-! ### Claim C9 -/

/-- C9: a successful delete clears exactly the found slot's `used`,
kind and name, keeps that slot's content bytes and content length, and
leaves every other slot untouched; this holds for both delete entry
points. -/
theorem c9_delete_frame :
    ∀ (t : List FsEntry) (name : List Char),
      ((fs_delete_file t name).1 = true →
        ∃ (i : Nat) (e e' : FsEntry), t[i]? = some e ∧
          (fs_delete_file t name).2[i]? = some e' ∧
          e'.used = false ∧ e'.is_dir = false ∧ e'.name = [] ∧
          e'.size = e.size ∧ e'.data = e.data ∧
          ∀ j : Nat, j ≠ i → (fs_delete_file t name).2[j]? = t[j]?) ∧
      ((fs_delete_dir t name).1 = true →
        ∃ (i : Nat) (e e' : FsEntry), t[i]? = some e ∧
          (fs_delete_dir t name).2[i]? = some e' ∧
          e'.used = false ∧ e'.is_dir = false ∧ e'.name = [] ∧
          e'.size = e.size ∧ e'.data = e.data ∧
          ∀ j : Nat, j ≠ i → (fs_delete_dir t name).2[j]? = t[j]?) := by
  intro t name
  constructor
  · intro h
    rcases hf : fs_find_index t name with _ | i
    · simp only [fs_delete_file, hf] at h
      cases h
    · simp only [fs_delete_file, hf] at h ⊢
      rcases hg : t[i]? with _ | e
      · simp only [hg] at h
        cases h
      · simp only [hg] at h ⊢
        by_cases hd : e.is_dir = true
        · rw [if_pos hd] at h
          cases h
        · rw [if_neg hd] at h ⊢
          refine ⟨i, e, { e with used := false, is_dir := false, name := [] },
            hg, ?_, rfl, rfl, rfl, rfl, rfl, ?_⟩
          · exact List.getElem?_set_self (getElem_some_lt hg)
          · intro j hj
            exact List.getElem?_set_ne (fun hx => hj hx.symm)
  · intro h
    rcases hf : fs_find_index t name with _ | i
    · simp only [fs_delete_dir, hf] at h
      cases h
    · simp only [fs_delete_dir, hf] at h ⊢
      rcases hg : t[i]? with _ | e
      · simp only [hg] at h
        cases h
      · simp only [hg] at h ⊢
        by_cases hd : e.is_dir = true
        · rw [if_pos hd] at h ⊢
          refine ⟨i, e, { e with used := false, is_dir := false, name := [] },
            hg, ?_, rfl, rfl, rfl, rfl, rfl, ?_⟩
          · exact List.getElem?_set_self (getElem_some_lt hg)
          · intro j hj
            exact List.getElem?_set_ne (fun hx => hj hx.symm)
        · rw [if_neg hd] at h
          cases h

theorem c9_delete_frame_witness :
    (fs_delete_file [fileSlot "x"] (cs "x")).1 = true ∧
    (fs_delete_dir [dirSlot "y"] (cs "y")).1 = true ∧
    (∃ (i : Nat) (e e' : FsEntry), [fileSlot "x"][i]? = some e ∧
      (fs_delete_file [fileSlot "x"] (cs "x")).2[i]? = some e' ∧
      e'.used = false ∧ e'.is_dir = false ∧ e'.name = [] ∧
      e'.size = e.size ∧ e'.data = e.data ∧
      ∀ j : Nat, j ≠ i → (fs_delete_file [fileSlot "x"] (cs "x")).2[j]? = [fileSlot "x"][j]?) ∧
    (∃ (i : Nat) (e e' : FsEntry), [dirSlot "y"][i]? = some e ∧
      (fs_delete_dir [dirSlot "y"] (cs "y")).2[i]? = some e' ∧
      e'.used = false ∧ e'.is_dir = false ∧ e'.name = [] ∧
      e'.size = e.size ∧ e'.data = e.data ∧
      ∀ j : Nat, j ≠ i → (fs_delete_dir [dirSlot "y"] (cs "y")).2[j]? = [dirSlot "y"][j]?) :=
  ⟨by decide, by decide,
    (c9_delete_frame [fileSlot "x"] (cs "x")).1 (by decide),
    (c9_delete_frame [dirSlot "y"] (cs "y")).2 (by decide)⟩

/-! ### Claim C10 -/

theorem write_step_fail {t : List FsEntry} {i : Nat} {e : FsEntry} {b : List Char}
    {ap : Bool} (h : (fs_write_step t i e b ap).1 = false) :
    (fs_write_step t i e b ap).2 = t := by
  by_cases hoff : maxFileSize ≤ (if ap then e.size else 0)
  · simp only [fs_write_step, if_pos hoff]
  · simp only [fs_write_step, if_neg hoff] at h
    cases h

theorem alloc_entry_none_snd {t : List FsEntry} {n : List Char} {d : Bool}
    (h : (fs_alloc_entry t n d).1 = none) : (fs_alloc_entry t n d).2 = t := by
  by_cases h1 : n.length = 0 ∨ maxNameLen < n.length
  · rw [fs_alloc_entry, if_pos h1]
  · by_cases h2 : (fs_find_index t n).isSome = true
    · rw [fs_alloc_entry, if_neg h1, if_pos h2]
    · rw [fs_alloc_entry, if_neg h1, if_neg h2] at h ⊢
      rcases alloc_slot_spec t n d with ⟨_, h3, _⟩ | ⟨i, e, h3, _, _, _⟩
      · exact h3
      · rw [h3] at h
        cases h

theorem alloc_entry_some_spec {t : List FsEntry} {n : List Char} {d : Bool} {i : Nat}
    (h : (fs_alloc_entry t n d).1 = some i) :
    0 < n.length ∧ n.length ≤ maxNameLen ∧ fs_find_index t n = none ∧
    ∃ e, t[i]? = some e ∧ e.used = false ∧
      (fs_alloc_entry t n d).2 = t.set i (fs_new_entry e n d) := by
  by_cases h1 : n.length = 0 ∨ maxNameLen < n.length
  · rw [fs_alloc_entry, if_pos h1] at h
    cases h
  · by_cases h2 : (fs_find_index t n).isSome = true
    · rw [fs_alloc_entry, if_neg h1, if_pos h2] at h
      cases h
    · rw [fs_alloc_entry, if_neg h1, if_neg h2] at h ⊢
      push_neg at h1
      refine ⟨by omega, by omega, ?_, ?_⟩
      · rcases hfo : fs_find_index t n with _ | v
        · rfl
        · rw [hfo] at h2
          simp at h2
      · rcases alloc_slot_spec t n d with ⟨h3, _, _⟩ | ⟨i', e, h3, h4, h5, h6⟩
        · rw [h3] at h
          cases h
        · rw [h3] at h
          injection h with hii
          subst hii
          exact ⟨e, h4, h5, h6⟩

theorem write_file_fail_frame {t : List FsEntry} {n b : List Char} {ap : Bool}
    (h : (fs_write_file t n b ap).1 = false) : (fs_write_file t n b ap).2 = t := by
  rcases hf : fs_find_index t n with _ | i
  · simp only [fs_write_file, hf] at h ⊢
    rcases ha : fs_alloc_entry t n false with ⟨o, t1⟩
    cases o with
    | none =>
      have h1 : (fs_alloc_entry t n false).1 = none := by rw [ha]
      have h2 := alloc_entry_none_snd h1
      rw [ha] at h2
      exact h2
    | some i1 =>
      rw [ha] at h
      have h1 : (fs_alloc_entry t n false).1 = some i1 := by rw [ha]
      obtain ⟨_, _, _, e₀, hg₀, hu₀, hset₀⟩ := alloc_entry_some_spec h1
      rw [ha] at hset₀
      have hset₁ : t1 = t.set i1 (fs_new_entry e₀ n false) := hset₀
      rcases hg : t1[i1]? with _ | e
      · rw [hset₁, List.getElem?_set_self (getElem_some_lt hg₀)] at hg
        cases hg
      · simp only [hg] at h
        have hoff : ¬ (maxFileSize ≤
            (if ap then ({ e with size := 0, data := e.data.set 0 c0 } : FsEntry).size else 0)) := by
          cases ap <;> simp [maxFileSize]
        simp only [fs_write_step, if_neg hoff] at h
        cases h
  · simp only [fs_write_file, hf] at h ⊢
    rcases hg : t[i]? with _ | e
    · simp only [hg] at h ⊢
    · simp only [hg] at h ⊢
      by_cases hd : e.is_dir = true
      · rw [if_pos hd]
      · rw [if_neg hd] at h ⊢
        exact write_step_fail h

/-- C10: whenever `fs_write_file` reports an error — null name, null
data with nonzero length, directory target, failed auto-create, or
append offset already at capacity — the table is returned unchanged:
write failure is atomic. -/
theorem c10_write_error_atomic :
    ∀ (t : List FsEntry) (nm bs : Option (List Char)) (len : Nat) (ap : Bool),
      (fs_write_file_c t nm bs len ap).1 = false →
      (fs_write_file_c t nm bs len ap).2 = t := by
  intro t nm bs len ap h
  cases nm with
  | none => rfl
  | some n =>
    cases bs with
    | none =>
      by_cases hl : 0 < len
      · simp only [fs_write_file_c, if_pos hl]
      · simp only [fs_write_file_c, if_neg hl] at h ⊢
        exact write_file_fail_frame h
    | some d =>
      simp only [fs_write_file_c] at h ⊢
      exact write_file_fail_frame h

theorem c10_write_error_atomic_witness :
    (fs_write_file_c [dirSlot "d"] (some (cs "d")) (some (cs "x")) 1 false).1 = false ∧
    (fs_write_file_c [dirSlot "d"] (some (cs "d")) (some (cs "x")) 1 false).2 = [dirSlot "d"] :=
  ⟨by decide,
    c10_write_error_atomic [dirSlot "d"] (some (cs "d")) (some (cs "x")) 1 false (by decide)⟩

/-! ### Claim C8 -/

theorem alloc_entry_succeeds {t : List FsEntry} {n : List Char} (d : Bool)
    (hlen : 0 < n.length) (hle : n.length ≤ maxNameLen)
    (hfind : fs_find_index t n = none)
    (hfree : ∃ (j : Nat) (e : FsEntry), t[j]? = some e ∧ e.used = false) :
    (fs_alloc_entry t n d).1.isSome = true := by
  rw [fs_alloc_entry, if_neg (by omega), if_neg (by rw [hfind]; simp)]
  rcases alloc_slot_spec t n d with ⟨h1, _, h3⟩ | ⟨i, e, h1, _, _, _⟩
  · rcases hfree with ⟨j, e, hj, hju⟩
    have := h3 e (List.getElem?_mem hj)
    rw [this] at hju
    cases hju
  · rw [h1]
    rfl

theorem create_dir_fst (t : List FsEntry) (n : List Char) :
    (fs_create_dir t n).1 = (fs_alloc_entry t n true).1.isSome := by
  rw [fs_create_dir]
  rcases fs_alloc_entry t n true with ⟨o, t'⟩
  cases o <;> rfl

theorem create_file_fst (t : List FsEntry) (n : List Char) :
    (fs_create_file t n).1 = (fs_alloc_entry t n false).1.isSome := by
  rw [fs_create_file]
  rcases fs_alloc_entry t n false with ⟨o, t'⟩
  cases o <;> rfl

theorem delete_dir_length (t : List FsEntry) (n : List Char) :
    (fs_delete_dir t n).2.length = t.length := by
  rcases hf : fs_find_index t n with _ | i
  · simp only [fs_delete_dir, hf]
  · simp only [fs_delete_dir, hf]
    rcases hg : t[i]? with _ | e
    · simp only [hg]
    · simp only [hg]
      split <;> simp

theorem delete_file_length (t : List FsEntry) (n : List Char) :
    (fs_delete_file t n).2.length = t.length := by
  rcases hf : fs_find_index t n with _ | i
  · simp only [fs_delete_file, hf]
  · simp only [fs_delete_file, hf]
    rcases hg : t[i]? with _ | e
    · simp only [hg]
    · simp only [hg]
      split <;> simp

theorem write_file_length (t : List FsEntry) (n b : List Char) (ap : Bool) :
    (fs_write_file t n b ap).2.length = t.length := by
  rcases hf : fs_find_index t n with _ | i
  · simp only [fs_write_file, hf]
    rcases ha : fs_alloc_entry t n false with ⟨o, t1⟩
    have hlen1 : t1.length = t.length := by
      have := alloc_entry_length t n false
      rw [ha] at this
      exact this
    cases o with
    | none => exact hlen1
    | some i1 =>
      rcases hg : t1[i1]? with _ | e
      · simp only [hg]
        exact hlen1
      · simp only [hg]
        rcases write_step_snd (t1.set i1 { e with size := 0, data := e.data.set 0 c0 })
            i1 { e with size := 0, data := e.data.set 0 c0 } b ap with h | ⟨e₂, h, _, _⟩
        · rw [h, List.length_set]
          exact hlen1
        · rw [h, List.length_set, List.length_set]
          exact hlen1
  · simp only [fs_write_file, hf]
    rcases hg : t[i]? with _ | e
    · simp only [hg]
    · simp only [hg]
      split
      · rfl
      · rcases write_step_snd t i e b ap with h | ⟨e₂, h, _, _⟩
        · rw [h]
        · rw [h, List.length_set]

theorem applyOp_length (t : List FsEntry) (op : FsOp) :
    (applyOp t op).length = t.length := by
  cases op with
  | cdir n => rw [applyOp, create_dir_snd, alloc_entry_length]
  | cfile n => rw [applyOp, create_file_snd, alloc_entry_length]
  | ddir n => exact delete_dir_length t n
  | dfile n => exact delete_file_length t n
  | fwrite n b ap => exact write_file_length t n b ap

theorem runOps_length (t : List FsEntry) (ops : List FsOp) :
    (runOps t ops).length = t.length := by
  induction ops generalizing t with
  | nil => rfl
  | cons op rest ih => rw [runOps, ih, applyOp_length]

/-- C8: on a fully used 128-slot table every create with a valid absent
name fails and changes nothing; after deleting one entry (by either
entry point) the same create succeeds; and every reachable table keeps
exactly 128 slots, so never more than 128 entries exist at once. -/
theorem c8_capacity :
    (∀ (t : List FsEntry) (n : List Char),
      t.length = maxEntries → t.all (fun e => e.used) = true →
      0 < n.length → n.length ≤ maxNameLen → fs_find_index t n = none →
      fs_create_dir t n = (false, t) ∧ fs_create_file t n = (false, t)) ∧
    (∀ (t : List FsEntry) (n n2 : List Char),
      0 < n.length → n.length ≤ maxNameLen → fs_find_index t n = none →
      (fs_delete_file t n2).1 = true →
      (fs_create_dir (fs_delete_file t n2).2 n).1 = true ∧
      (fs_create_file (fs_delete_file t n2).2 n).1 = true) ∧
    (∀ (t : List FsEntry) (n n2 : List Char),
      0 < n.length → n.length ≤ maxNameLen → fs_find_index t n = none →
      (fs_delete_dir t n2).1 = true →
      (fs_create_dir (fs_delete_dir t n2).2 n).1 = true ∧
      (fs_create_file (fs_delete_dir t n2).2 n).1 = true) ∧
    (∀ ops : List FsOp, (runOps initTable ops).length = maxEntries ∧
      usedCount (runOps initTable ops) ≤ maxEntries) := by
  refine ⟨?_, ?_, ?_, ?_⟩
  · intro t n _ hall hlen hle hfind
    have halloc : ∀ d, fs_alloc_entry t n d = (none, t) := by
      intro d
      rw [fs_alloc_entry, if_neg (by omega), if_neg (by rw [hfind]; simp)]
      rcases hs : fs_alloc_slot t n d with ⟨o, t'⟩
      rcases alloc_slot_spec t n d with ⟨h1, h2, _⟩ | ⟨i, e, h1, h2, h3, _⟩
      · rw [hs] at h1 h2
        simp only at h1 h2
        rw [h1, h2]
      · have := List.all_eq_true.mp hall e (List.getElem?_mem h2)
        rw [h3] at this
        cases this
    constructor
    · rw [fs_create_dir, halloc true]
    · rw [fs_create_file, halloc false]
  · intro t n n2 hlen hle hfind hdel
    obtain ⟨i, e, e', hge, hge', hu', _, _, _, _, _⟩ :=
      (c9_delete_frame t n2).1 hdel
    have hfind' : fs_find_index (fs_delete_file t n2).2 n = none := by
      have hdchar : ∃ (j : Nat) (e0 : FsEntry), fs_find_index t n2 = some j ∧
          (fs_delete_file t n2).2 =
            t.set j { e0 with used := false, is_dir := false, name := [] } := by
        rcases hf2 : fs_find_index t n2 with _ | j
        · simp only [fs_delete_file, hf2] at hdel
          cases hdel
        · simp only [fs_delete_file, hf2] at hdel ⊢
          rcases hg2 : t[j]? with _ | e0
          · simp only [hg2] at hdel
            cases hdel
          · simp only [hg2] at hdel ⊢
            by_cases hd2 : e0.is_dir = true
            · rw [if_pos hd2] at hdel
              cases hdel
            · rw [if_neg hd2] at hdel ⊢
              exact ⟨j, e0, rfl, rfl⟩
      obtain ⟨j, e0, _, hset⟩ := hdchar
      rw [hset]
      exact find_none_set_unused hfind rfl
    have hfree : ∃ (j : Nat) (e0 : FsEntry),
        (fs_delete_file t n2).2[j]? = some e0 ∧ e0.used = false :=
      ⟨i, e', hge', hu'⟩
    constructor
    · rw [create_dir_fst]
      exact alloc_entry_succeeds true hlen hle hfind' hfree
    · rw [create_file_fst]
      exact alloc_entry_succeeds false hlen hle hfind' hfree
  · intro t n n2 hlen hle hfind hdel
    obtain ⟨i, e, e', hge, hge', hu', _, _, _, _, _⟩ :=
      (c9_delete_frame t n2).2 hdel
    have hfind' : fs_find_index (fs_delete_dir t n2).2 n = none := by
      have hdchar : ∃ (j : Nat) (e0 : FsEntry), fs_find_index t n2 = some j ∧
          (fs_delete_dir t n2).2 =
            t.set j { e0 with used := false, is_dir := false, name := [] } := by
        rcases hf2 : fs_find_index t n2 with _ | j
        · simp only [fs_delete_dir, hf2] at hdel
          cases hdel
        · simp only [fs_delete_dir, hf2] at hdel ⊢
          rcases hg2 : t[j]? with _ | e0
          · simp only [hg2] at hdel
            cases hdel
          · simp only [hg2] at hdel ⊢
            by_cases hd2 : e0.is_dir = true
            · rw [if_pos hd2] at hdel ⊢
              exact ⟨j, e0, rfl, rfl⟩
            · rw [if_neg hd2] at hdel
              cases hdel
      obtain ⟨j, e0, _, hset⟩ := hdchar
      rw [hset]
      exact find_none_set_unused hfind rfl
    have hfree : ∃ (j : Nat) (e0 : FsEntry),
        (fs_delete_dir t n2).2[j]? = some e0 ∧ e0.used = false :=
      ⟨i, e', hge', hu'⟩
    constructor
    · rw [create_dir_fst]
      exact alloc_entry_succeeds true hlen hle hfind' hfree
    · rw [create_file_fst]
      exact alloc_entry_succeeds false hlen hle hfind' hfree
  · intro ops
    have hlen : (runOps initTable ops).length = maxEntries := by
      rw [runOps_length, initTable, runOps_length]
      simp [base128]
    refine ⟨hlen, ?_⟩
    rw [usedCount, ← hlen]
    exact List.length_filter_le _ _

theorem c8_capacity_witness :
    (allUsed128.length = maxEntries ∧ allUsed128.all (fun e => e.used) = true ∧
      0 < (cs "b").length ∧ (cs "b").length ≤ maxNameLen ∧
      fs_find_index allUsed128 (cs "b") = none ∧
      fs_create_dir allUsed128 (cs "b") = (false, allUsed128)) ∧
    ((fs_delete_file allUsed128 (cs "a")).1 = true ∧
      (fs_create_dir (fs_delete_file allUsed128 (cs "a")).2 (cs "b")).1 = true) ∧
    (runOps initTable []).length = maxEntries :=
  ⟨⟨by decide, by decide, by decide, by decide, by decide,
    (c8_capacity.1 allUsed128 (cs "b") (by decide) (by decide) (by decide)
      (by decide) (by decide)).1⟩,
   ⟨by decide,
    (c8_capacity.2.1 allUsed128 (cs "b") (cs "a") (by decide) (by decide)
      (by decide) (by decide)).1⟩,
   (c8_capacity.2.2.2 []).1⟩

/-! ### Claim C1 -/

/-- C1 (amended): writing to an absent name auto-creates a File entry
holding that name; on success the stored content is the provided bytes
truncated to the 512-byte capacity — except that a write filling the
content to exactly 512 bytes gets its last stored byte overwritten by
the NUL terminator, so the 512th stored byte is NUL rather than the
512th input byte. -/
theorem c1_write_autocreate :
    ∀ (t : List FsEntry) (name bytes : List Char) (ap : Bool),
      (∀ x ∈ t, x.data.length = maxFileSize) →
      fs_find_index t name = none →
      (fs_write_file t name bytes ap).1 = true →
      ∃ (i : Nat) (e : FsEntry),
        fs_find_index (fs_write_file t name bytes ap).2 name = some i ∧
        (fs_write_file t name bytes ap).2[i]? = some e ∧
        e.used = true ∧ e.is_dir = false ∧ e.name = name ∧
        content e = nulClamp (bytes.take maxFileSize) := by
  intro t name bytes ap hwf hfind hsucc
  simp only [fs_write_file, hfind] at hsucc ⊢
  rcases ha : fs_alloc_entry t name false with ⟨o, t1⟩
  rw [ha] at hsucc
  cases o with
  | none => simp at hsucc
  | some i =>
    have h1 : (fs_alloc_entry t name false).1 = some i := by rw [ha]
    obtain ⟨hnlen, hnle, _, e₀, hg₀, hu₀, hset₀⟩ := alloc_entry_some_spec h1
    rw [ha] at hset₀
    have hset₁ : t1 = t.set i (fs_new_entry e₀ name false) := hset₀
    have hilt : i < t.length := getElem_some_lt hg₀
    have hg1 : t1[i]? = some (fs_new_entry e₀ name false) := by
      rw [hset₁]
      exact List.getElem?_set_self hilt
    simp only [hg1] at hsucc ⊢
    have hd0 : ({ (fs_new_entry e₀ name false) with
        size := 0, data := (fs_new_entry e₀ name false).data.set 0 c0 } : FsEntry).data.length =
        maxFileSize := by
      simp [fs_new_entry]
      exact hwf e₀ (List.getElem?_mem hg₀)
    have hoff : (if ap then ({ (fs_new_entry e₀ name false) with
        size := 0, data := (fs_new_entry e₀ name false).data.set 0 c0 } : FsEntry).size else 0) <
        maxFileSize := by
      cases ap <;> simp [maxFileSize]
    obtain ⟨e', hstep, hu', hdir', hn', hd', hsz', hcontent⟩ :=
      write_step_spec (t1.set i { (fs_new_entry e₀ name false) with
        size := 0, data := (fs_new_entry e₀ name false).data.set 0 c0 }) i
        { (fs_new_entry e₀ name false) with
          size := 0, data := (fs_new_entry e₀ name false).data.set 0 c0 } bytes ap hd0 hoff
    rw [hstep]
    have htbl : ((t1.set i { (fs_new_entry e₀ name false) with
        size := 0, data := (fs_new_entry e₀ name false).data.set 0 c0 }).set i e') = t.set i e' := by
      rw [hset₁, List.set_set, List.set_set]
    rw [htbl]
    refine ⟨i, e', ?_, ?_, ?_, ?_, ?_, ?_⟩
    · apply find_none_set_used hfind hilt
      · rw [hu']
        rfl
      · rw [hn']
        rfl
    · exact List.getElem?_set_self hilt
    · rw [hu']
      rfl
    · rw [hdir']
      rfl
    · rw [hn']
      rfl
    · rw [hcontent]
      have hz : (if ap then ({ (fs_new_entry e₀ name false) with
          size := 0, data := (fs_new_entry e₀ name false).data.set 0 c0 } : FsEntry).size else 0) = 0 := by
        cases ap <;> rfl
      rw [hz]
      simp

theorem c1_write_autocreate_counterexample :
    (fs_write_file [initEntry] (cs "f") (List.replicate maxFileSize 'a') false).1 = true ∧
    ((fs_write_file [initEntry] (cs "f")
      (List.replicate maxFileSize 'a') false).2[0]?).map content ≠
      some (List.replicate maxFileSize 'a') := by
  constructor
  · decide
  · decide

theorem c1_write_autocreate_witness :
    (fs_write_file [initEntry] (cs "f") (cs "hi") false).1 = true ∧
    (∃ (i : Nat) (e : FsEntry),
      fs_find_index (fs_write_file [initEntry] (cs "f") (cs "hi") false).2 (cs "f") = some i ∧
      (fs_write_file [initEntry] (cs "f") (cs "hi") false).2[i]? = some e ∧
      e.used = true ∧ e.is_dir = false ∧ e.name = cs "f" ∧
      content e = nulClamp ((cs "hi").take maxFileSize)) :=
  ⟨by decide,
    c1_write_autocreate [initEntry] (cs "f") (cs "hi") false (by decide) (by decide) (by decide)⟩

/-! ### Claim C6 -/

theorem write_step_succ_off {t : List FsEntry} {i : Nat} {e : FsEntry} {b : List Char}
    {ap : Bool} (h : (fs_write_step t i e b ap).1 = true) :
    (if ap then e.size else 0) < maxFileSize := by
  by_contra hc
  push_neg at hc
  simp only [fs_write_step, if_pos hc] at h
  cases h

/-- C6 (amended): appending `s1` then `s2` to a file entry concatenates
them in order after the entry's existing content, bounded by the
512-byte capacity, except that when the content reaches exactly the
full capacity the last stored byte is overwritten by NUL; an Overwrite
write always succeeds on a file and stores the new bytes alone from
offset 0, with the same capacity-edge NUL rule. -/
theorem c6_append_overwrite :
    (∀ (t : List FsEntry) (name : List Char) (i : Nat) (e : FsEntry) (s1 s2 : List Char),
      (∀ x ∈ t, x.data.length = maxFileSize) →
      fs_find_index t name = some i → t[i]? = some e → e.is_dir = false →
      (fs_write_file t name s1 true).1 = true →
      (fs_write_file (fs_write_file t name s1 true).2 name s2 true).1 = true →
      ∃ e', (fs_write_file (fs_write_file t name s1 true).2 name s2 true).2[i]? = some e' ∧
        content e' = nulClamp ((content e ++ s1 ++ s2).take maxFileSize)) ∧
    (∀ (t : List FsEntry) (name : List Char) (i : Nat) (e : FsEntry) (s2 : List Char),
      (∀ x ∈ t, x.data.length = maxFileSize) →
      fs_find_index t name = some i → t[i]? = some e → e.is_dir = false →
      (fs_write_file t name s2 false).1 = true ∧
      ∃ e', (fs_write_file t name s2 false).2[i]? = some e' ∧
        content e' = nulClamp (s2.take maxFileSize)) := by
  constructor
  · intro t name i e s1 s2 hwf hfind hget hdir h1succ h2succ
    obtain ⟨e₁, hg₁, hu₁, hn₁⟩ := find_some_spec hfind
    rw [hget] at hg₁
    obtain rfl : e = e₁ := Option.some.inj hg₁
    have hdir' : ¬ (e.is_dir = true) := by rw [hdir]; simp
    have hd : e.data.length = maxFileSize := hwf e (List.getElem?_mem hget)
    simp only [fs_write_file, hfind, hget, if_neg hdir'] at h1succ
    have hoff1 := write_step_succ_off h1succ
    obtain ⟨e1, hstep1, hu1', hdir1', hn1', hd1len, hsz1, hcontent1⟩ :=
      write_step_spec t i e s1 true hd hoff1
    have hr1 : fs_write_file t name s1 true = (true, t.set i e1) := by
      simp only [fs_write_file, hfind, hget, if_neg hdir']
      exact hstep1
    have hu1t : e1.used = true := by rw [hu1', hu₁]
    have hn1t : e1.name = name := by rw [hn1', hn₁]
    have hilt : i < t.length := getElem_some_lt hget
    have hfind2 : fs_find_index (t.set i e1) name = some i :=
      find_set_same hfind hu1t hn1t
    have hget2 : (t.set i e1)[i]? = some e1 := List.getElem?_set_self hilt
    have hdir2' : ¬ (e1.is_dir = true) := by rw [hdir1', hdir]; simp
    rw [hr1] at h2succ ⊢
    simp only [fs_write_file, hfind2, hget2, if_neg hdir2'] at h2succ ⊢
    have hoff2 := write_step_succ_off h2succ
    obtain ⟨e2, hstep2, hu2', hdir2'', hn2', hd2len, hsz2, hcontent2⟩ :=
      write_step_spec (t.set i e1) i e1 s2 true hd1len hoff2
    rw [hstep2]
    refine ⟨e2, ?_, ?_⟩
    · rw [List.set_set]
      exact List.getElem?_set_self hilt
    · simp only [eq_self_iff_true, if_true, ite_true,
        if_pos rfl] at hoff1 hoff2 hcontent1 hcontent2 hsz1 hsz2
      have hlce : (content e).length = e.size := by
        rw [content, List.length_take, hd]
        omega
      have hlts : e.size + s1.length < maxFileSize := by
        rw [hsz1] at hoff2
        omega
      have hlenA : (e.data.take e.size).length = e.size := by
        rw [List.length_take, hd]
        omega
      have hce1 : content e1 = content e ++ s1 := by
        rw [hcontent1]
        have harg : (e.data.take e.size ++ s1).take maxFileSize =
            e.data.take e.size ++ s1 := by
          apply List.take_of_length_le
          rw [List.length_append, hlenA]
          omega
        have hlt : (e.data.take e.size ++ s1).length < maxFileSize := by
          rw [List.length_append, hlenA]
          omega
        rw [harg, nulClamp, if_pos hlt]
        rfl
      have hcd1 : e1.data.take e1.size = content e1 := rfl
      rw [hcontent2, hcd1, hce1]
  · intro t name i e s2 hwf hfind hget hdir
    have hdir' : ¬ (e.is_dir = true) := by rw [hdir]; simp
    have hd : e.data.length = maxFileSize := hwf e (List.getElem?_mem hget)
    have hoff : ((if false then e.size else 0) : Nat) < maxFileSize := by
      simp [maxFileSize]
    obtain ⟨e', hstep, hu', hdir2, hn', hd', hsz', hcontent⟩ :=
      write_step_spec t i e s2 false hd hoff
    have hr : fs_write_file t name s2 false = (true, t.set i e') := by
      simp only [fs_write_file, hfind, hget, if_neg hdir']
      exact hstep
    constructor
    · rw [hr]
    · refine ⟨e', ?_, ?_⟩
      · rw [hr]
        exact List.getElem?_set_self (getElem_some_lt hget)
      · rw [hcontent]
        simp

theorem c6_append_overwrite_counterexample :
    (fs_write_file [fileSlot "f"] (cs "f") (List.replicate 256 'a') true).1 = true ∧
    (fs_write_file (fs_write_file [fileSlot "f"] (cs "f")
      (List.replicate 256 'a') true).2 (cs "f") (List.replicate 256 'b') true).1 = true ∧
    ((fs_write_file (fs_write_file [fileSlot "f"] (cs "f")
      (List.replicate 256 'a') true).2 (cs "f")
      (List.replicate 256 'b') true).2[0]?).map content ≠
      some (List.replicate 256 'a' ++ List.replicate 256 'b') := by
  refine ⟨?_, ?_, ?_⟩
  · decide
  · decide
  · decide

theorem c6_append_overwrite_witness :
    ((fs_write_file [fileSlot "f"] (cs "f") (cs "ab") true).1 = true ∧
     (fs_write_file (fs_write_file [fileSlot "f"] (cs "f") (cs "ab") true).2
       (cs "f") (cs "cd") true).1 = true ∧
     ∃ e', (fs_write_file (fs_write_file [fileSlot "f"] (cs "f") (cs "ab") true).2
       (cs "f") (cs "cd") true).2[0]? = some e' ∧
       content e' = nulClamp ((content (fileSlot "f") ++ cs "ab" ++ cs "cd").take maxFileSize)) ∧
    ((fs_write_file [fileSlot "f"] (cs "f") (cs "xy") false).1 = true ∧
     ∃ e', (fs_write_file [fileSlot "f"] (cs "f") (cs "xy") false).2[0]? = some e' ∧
       content e' = nulClamp ((cs "xy").take maxFileSize)) :=
  ⟨⟨by decide, by decide,
    c6_append_overwrite.1 [fileSlot "f"] (cs "f") 0 (fileSlot "f") (cs "ab") (cs "cd")
      (by decide) (by decide) (by decide) (by decide) (by decide) (by decide)⟩,
   c6_append_overwrite.2 [fileSlot "f"] (cs "f") 0 (fileSlot "f") (cs "xy")
      (by decide) (by decide) (by decide) (by decide)⟩

/-! ### Claim C3 -/

theorem last_slash_no_slash (p n : List Char) (hn : '/' ∉ n) :
    ∀ m, m ≤ n.length → last_slash (p ++ '/' :: n) (p.length + 1 + m) = p.length + 1 := by
  intro m
  induction m with
  | zero =>
    intro _
    have hget : (p ++ '/' :: n).getD p.length c0 = '/' := by
      rw [List.getD_eq_getElem?_getD, List.getElem?_append_right (Nat.le_refl _)]
      simp
    rw [Nat.add_zero, last_slash, if_pos hget]
  | succ m ih =>
    intro hm
    have harith : p.length + 1 + (m + 1) = (p.length + 1 + m) + 1 := by omega
    have hmlt : m < n.length := by omega
    have hget : (p ++ '/' :: n).getD (p.length + 1 + m) c0 = n.getD m c0 := by
      rw [List.getD_eq_getElem?_getD, List.getElem?_append_right (by omega)]
      have hidx : p.length + 1 + m - p.length = m + 1 := by omega
      rw [hidx, List.getElem?_cons_succ, List.getD_eq_getElem?_getD]
    have hne : n.getD m c0 ≠ '/' := by
      have hmem : n.getD m c0 ∈ n := by
        rw [List.getD_eq_getElem?_getD, List.getElem?_eq_getElem hmlt]
        exact List.getElem_mem hmlt
      intro hcon
      rw [hcon] at hmem
      exact hn hmem
    rw [harith, last_slash, if_neg (by rw [hget]; exact hne)]
    exact ih (by omega)

/-- C3 (amended): for a non-empty directory p and a separator-free name
n, `path_parent (path_join p n osz) osz = p` holds whenever the joined
path fits the output buffer, i.e. `p.length + 1 + n.length < osz`; the
silent truncation of `path_join` breaks the identity for longer
inputs. -/
theorem c3_parent_join :
    ∀ (p n : List Char) (osz : Nat), p ≠ [] → '/' ∉ n →
      p.length + 1 + n.length < osz →
      path_parent (path_join p n osz) osz = p := by
  intro p n osz hp hn hfit
  have hplen : 0 < p.length := List.length_pos.mpr hp
  have hosz : ¬ (osz = 0) := by omega
  have hjoin : path_join p n osz = p ++ '/' :: n := by
    rw [path_join, if_neg hosz, if_neg (by omega)]
    apply List.take_of_length_le
    simp
    omega
  have hlen : (p ++ '/' :: n).length = p.length + 1 + n.length := by
    simp
    omega
  rw [hjoin, path_parent, if_neg hosz, if_neg (by rw [hlen]; omega)]
  have hls : last_slash (p ++ '/' :: n) (p ++ '/' :: n).length = p.length + 1 := by
    rw [hlen]
    exact last_slash_no_slash p n hn n.length (Nat.le_refl _)
  simp only [hls, if_neg (by omega : ¬ (p.length + 1 = 0))]
  have hmin : min (p.length + 1 - 1) (osz - 1) = p.length := by omega
  rw [hmin]
  exact List.take_left' rfl

theorem c3_parent_join_counterexample :
    List.replicate 31 'a' ≠ [] ∧ '/' ∉ ['b'] ∧
    path_parent (path_join (List.replicate 31 'a') ['b'] nameBufSize) nameBufSize ≠
      List.replicate 31 'a' := by
  refine ⟨?_, ?_, ?_⟩
  · decide
  · decide
  · decide

theorem c3_parent_join_witness :
    cs "user" ≠ [] ∧ '/' ∉ cs "notes" ∧
    (cs "user").length + 1 + (cs "notes").length < nameBufSize ∧
    path_parent (path_join (cs "user") (cs "notes") nameBufSize) nameBufSize = cs "user" :=
  ⟨by decide, by decide, by decide,
    c3_parent_join (cs "user") (cs "notes") nameBufSize (by decide) (by decide) (by decide)⟩

/-! ### Claim C4 -/

theorem filterMap_if_eq_filter_map {α β : Type} (p : α → Prop) [DecidablePred p]
    (f : α → β) (l : List α) :
    (l.filterMap (fun a => if p a then some (f a) else none)) =
    (l.filter (fun a => decide (p a))).map f := by
  induction l with
  | nil => rfl
  | cons a l ih =>
    by_cases h : p a
    · simp [List.filterMap_cons, List.filter_cons, h, ih]
    · simp [List.filterMap_cons, List.filter_cons, h, ih]

/-- C4: the listing command reports, in slot order, exactly the used
entries whose derived parent equals the current-directory string, each
as its basename tagged with its kind; concretely, under `"user"` with
entries `user/a` (File), `user/b` (Directory) and `user/b/c` present it
lists exactly `a` as a file and `b` as a directory, in table order. -/
theorem c4_sdir_listing :
    (∀ (t : List FsEntry) (cur : List Char),
      cli_cmd_sdir t cur =
        (t.filter (fun e =>
          decide (e.used = true ∧ path_parent e.name nameBufSize = cur))).map
          (fun e => (e.is_dir, path_basename e.name nameBufSize))) ∧
    cli_cmd_sdir sdirExample (cs "user") = [(false, cs "a"), (true, cs "b")] := by
  constructor
  · intro t cur
    exact filterMap_if_eq_filter_map _ _ t
  · decide

/-! ### Claim C5 -/

theorem path_join_length_le (d n : List Char) (osz : Nat) :
    (path_join d n osz).length ≤ osz - 1 := by
  rw [path_join]
  split
  · simp
  · split
    · simp
    · simp

/-- C5: for any current directory and any argument name other than `.`
and `..`, the change-directory command sets the current directory to
`path_join current name` exactly when an entry with that full name
exists and is a Directory; otherwise (no such entry, or a File) it
fails and leaves the current directory unchanged. -/
theorem c5_cd_directory_check :
    ∀ (t : List FsEntry) (cur args : List Char),
      cli_first_arg args nameBufSize ≠ [] →
      cli_first_arg args nameBufSize ≠ ['.'] →
      cli_first_arg args nameBufSize ≠ ['.', '.'] →
      ((∃ (i : Nat) (e : FsEntry),
          fs_find_index t (path_join cur (cli_first_arg args nameBufSize) nameBufSize) =
            some i ∧ t[i]? = some e ∧ e.is_dir = true) →
        cli_cmd_cd t cur args =
          path_join cur (cli_first_arg args nameBufSize) nameBufSize) ∧
      ((∀ (i : Nat) (e : FsEntry),
          fs_find_index t (path_join cur (cli_first_arg args nameBufSize) nameBufSize) =
            some i → t[i]? = some e → e.is_dir = false) →
        cli_cmd_cd t cur args = cur) := by
  intro t cur args h1 h2 h3
  rcases hf : fs_find_index t (path_join cur (cli_first_arg args nameBufSize) nameBufSize)
    with _ | i
  · constructor
    · rintro ⟨i, e, hfi, _, _⟩
      cases hfi
    · intro _
      simp only [cli_cmd_cd, if_neg h1, if_neg h2, if_neg h3, hf]
  · obtain ⟨e₀, hg₀, hu₀, hn₀⟩ := find_some_spec hf
    constructor
    · rintro ⟨i', e', hfi, hge, hdir⟩
      injection hfi with hii
      subst hii
      rw [hg₀] at hge
      obtain rfl : e₀ = e' := Option.some.inj hge
      simp only [cli_cmd_cd, if_neg h1, if_neg h2, if_neg h3, hf, hg₀]
      rw [if_pos ⟨hu₀, hdir⟩]
      apply List.take_of_length_le
      have hjl := path_join_length_le cur (cli_first_arg args nameBufSize) nameBufSize
      simp only [nameBufSize, maxNameLen] at hjl ⊢
      omega
    · intro hall
      have hdir0 : e₀.is_dir = false := hall i e₀ rfl hg₀
      simp only [cli_cmd_cd, if_neg h1, if_neg h2, if_neg h3, hf, hg₀]
      rw [if_neg ?_]
      rw [hdir0]
      rintro ⟨_, hx⟩
      cases hx

theorem c5_cd_directory_check_witness :
    (cli_cmd_cd [dirSlot "user/x"] (cs "user") (cs "x") =
      path_join (cs "user") (cli_first_arg (cs "x") nameBufSize) nameBufSize) ∧
    (cli_cmd_cd [fileSlot "user/y"] (cs "user") (cs "y") = cs "user") :=
  ⟨(c5_cd_directory_check [dirSlot "user/x"] (cs "user") (cs "x")
      (by decide) (by decide) (by decide)).1
      ⟨0, dirSlot "user/x", by decide, by decide, by decide⟩,
   (c5_cd_directory_check [fileSlot "user/y"] (cs "user") (cs "y")
      (by decide) (by decide) (by decide)).2
      (by
        intro i e hfi hge
        have hi0 : i = 0 := by
          have := find_some_lt hfi
          simp at this
          omega
        subst hi0
        have : fileSlot "user/y" = e := by simpa using hge
        rw [← this]
        decide)⟩

end Enixnel
